import Mathlib

/-!
Verification of the `run-ci` PR selection & trigger orchestrator
(`pkg/cli/runner.go` and the `config` reader embedded alongside it).

Shallow embedding conventions:
* Go strings are Lean `String`; Go booleans are `Bool`.
* Go `(T, error)` return values become `Except String T` (or explicit pairs
  where the Go code uses both components, as `logrus.ParseLevel` does).
* Filesystem and network effects are passed in as explicit function
  parameters (`ExistFile`, the YAML reader, the expression compiler for
  non-empty sources), so the embedded functions stay pure and executable.
* Code of the repository that is not part of the given sources
  (`controller.UpdatePR`, `expr.New`) is modelled from the spec; each such
  definition carries a doc comment starting with `Modelled from the spec:`.
-/

/-- Git identity sub-configuration (`cfg.GitCommand` in `runner.go`). -/
structure GitCommandConfig where
  UserName : String
  UserEmail : String
deriving DecidableEq, Repr

/-- Configuration assembled from file, flags, environment and defaults
(`config.Config`).  The fields are exactly those `runner.go` reads:
`Owner`, `Repo`, `GitHubToken`, `Base`, `All`, `LogLevel`, `Expr`,
`EmptyCommitMsg`, `GitCommand`. -/
structure Config where
  Owner : String
  Repo : String
  GitHubToken : String
  Base : String
  All : Bool
  LogLevel : String
  Expr : String
  EmptyCommitMsg : String
  GitCommand : GitCommandConfig
deriving DecidableEq, Repr

/-- Zero value of `Config` (Go `config.Config{}`), as produced by
`Reader.FindAndRead` when no configuration file is found. -/
def Config.zero : Config :=
  { Owner := "", Repo := "", GitHubToken := "", Base := "", All := false
    LogLevel := "", Expr := "", EmptyCommitMsg := ""
    GitCommand := { UserName := "", UserEmail := "" } }

/-- CLI flag values of the `update-pr` command as read through
`c.String`/`c.Bool` in `Runner.setCLIArg`; an unset string flag reads as
`""` and an unset bool flag as `false`, which is exactly what the urfave/cli
accessors return. -/
structure CLIContext where
  owner : String
  repo : String
  githubToken : String
  base : String
  all : Bool
  logLevel : String
  configPath : String
deriving DecidableEq, Repr

/-- Embedding of `Runner.setCLIArg` (`runner.go:89-109`): each non-empty
string flag overrides the corresponding configuration field, and the `all`
flag can only set `All` to `true`, never clear it. -/
def setCLIArg (c : CLIContext) (cfg : Config) : Config :=
  let cfg := if c.owner ≠ "" then { cfg with Owner := c.owner } else cfg
  let cfg := if c.repo ≠ "" then { cfg with Repo := c.repo } else cfg
  let cfg := if c.githubToken ≠ "" then { cfg with GitHubToken := c.githubToken } else cfg
  let cfg := if c.base ≠ "" then { cfg with Base := c.base } else cfg
  let cfg := if c.all then { cfg with All := true } else cfg
  let cfg := if c.logLevel ≠ "" then { cfg with LogLevel := c.logLevel } else cfg
  cfg

/-- C5: `Runner.setCLIArg` merges CLI flags into the configuration:
each of the owner, repo, github-token, base and log-level fields takes
the flag value when the flag is non-empty and the input value otherwise;
`All` is true exactly when the `all` flag is set or the input `All` was
already true; and no other configuration field changes. -/
theorem setCLIArg_spec (c : CLIContext) (cfg : Config) :
    (setCLIArg c cfg).Owner = (if c.owner ≠ "" then c.owner else cfg.Owner) ∧
    (setCLIArg c cfg).Repo = (if c.repo ≠ "" then c.repo else cfg.Repo) ∧
    (setCLIArg c cfg).GitHubToken =
      (if c.githubToken ≠ "" then c.githubToken else cfg.GitHubToken) ∧
    (setCLIArg c cfg).Base = (if c.base ≠ "" then c.base else cfg.Base) ∧
    (setCLIArg c cfg).LogLevel = (if c.logLevel ≠ "" then c.logLevel else cfg.LogLevel) ∧
    (setCLIArg c cfg).All = (c.all || cfg.All) ∧
    (setCLIArg c cfg).Expr = cfg.Expr ∧
    (setCLIArg c cfg).EmptyCommitMsg = cfg.EmptyCommitMsg ∧
    (setCLIArg c cfg).GitCommand = cfg.GitCommand := by
  unfold setCLIArg
  by_cases h1 : c.owner = "" <;> by_cases h2 : c.repo = "" <;>
    by_cases h3 : c.githubToken = "" <;> by_cases h4 : c.base = "" <;>
    by_cases h5 : c.all = true <;> by_cases h6 : c.logLevel = "" <;>
    simp_all

/-- Evaluation context: the read-only view of a pull-request candidate that
the filter expression is evaluated against (spec §3: title, labels, author,
draft state, plus the PR coordinates). -/
structure EvalContext where
  Number : Nat
  Title : String
  Author : String
  Labels : List String
  Draft : Bool
deriving DecidableEq, Repr

/-- Compiled predicate type: evaluating a predicate on a context either
yields a boolean or a per-candidate evaluation error (spec §4.1). -/
def Predicate : Type := EvalContext → Except String Bool

/-- Modelled from the spec: `expr.New` (package `pkg/expr`, not among the
given sources) compiles a filter-expression string once per run.  The spec
fixes only the empty case: an empty/absent source compiles to a predicate
that always returns true.  Compilation of a non-empty source is provider
logic we keep abstract as the parameter `compileNonEmpty`. -/
def exprNew (compileNonEmpty : String → Except String Predicate)
    (source : String) : Except String Predicate :=
  if source = "" then Except.ok (fun _ => Except.ok true) else compileNonEmpty source

/-- Lower-casing used by `logrus.ParseLevel` (`strings.ToLower`), mapped
character-wise; the level names are ASCII, for which this agrees with the
Go function.  (Stated on the character list so that it evaluates by kernel
reduction, which `String.toLower` does not.) -/
def toLowerStr (s : String) : String :=
  String.mk (s.data.map Char.toLower)

/-- Embedding of `logrus.ParseLevel`: recognises the eight logrus level
names (after lower-casing) and otherwise returns the zero `Level` value
together with an error, exactly as the Go function returns `(Level(0), err)`
on failure. -/
def parseLevel (lvl : String) : Nat × Option String :=
  match toLowerStr lvl with
  | "panic" => (0, none)
  | "fatal" => (1, none)
  | "error" => (2, none)
  | "warn" => (3, none)
  | "warning" => (3, none)
  | "info" => (4, none)
  | "debug" => (5, none)
  | "trace" => (6, none)
  | _ => (0, some ("not a valid logrus Level: " ++ lvl))

/-- CI-platform environment detected by `cienv.Get()`: when a platform is
detected it can report the repository owner and name. -/
structure Platform where
  repoOwner : String
  repoName : String
deriving DecidableEq, Repr

/-- Errors `Runner.action` can return before orchestration, mirroring the
error values declared in `runner.go:81-87` plus the config-read and
expression-compile failures. -/
inductive ActionError where
  | readConfig (msg : String)
  | ownerRequired
  | repoRequired
  | eitherAllorBaseRequired
  | bothAllAndBaseCantBeSet
  | compile (msg : String)
deriving DecidableEq, Repr

/-- Result of `Runner.action`: either an error returned before orchestration,
or the invocation of `controller.UpdatePR` with the assembled configuration. -/
inductive ActionOutcome where
  | err (e : ActionError)
  | updatePR (cfg : Config)
deriving DecidableEq, Repr

/-- Observable side effects of `Runner.action` in program order, used to
state "before any network call" properties: creating the GitHub client,
logging an invalid log level, `logrus.SetLevel`, the config debug log, and
the call into `controller.UpdatePR`. -/
inductive Event where
  | ghClientCreated (token : String)
  | logInvalidLogLevel (lvl : String)
  | setLogLevel (lvl : Nat)
  | logConfigDebug
  | updatePRCalled (cfg : Config)
deriving DecidableEq, Repr

/-- CI-platform fallback of `Runner.action` (`runner.go:139-148`): when a
platform is detected, fill `Owner` and `Repo` from the platform environment,
but only when they are still empty after the other configuration layers. -/
def applyPlatform (platform : Option Platform) (cfg : Config) : Config :=
  match platform with
  | none => cfg
  | some p =>
    let cfg := if cfg.Owner = "" then { cfg with Owner := p.repoOwner } else cfg
    if cfg.Repo = "" then { cfg with Repo := p.repoName } else cfg

/-- Full configuration assembly of `Runner.action` (`runner.go:135-148`):
CLI flags, `config.SetEnv`, `config.SetDefault`, then the platform
fallback. -/
def assembleConfig (setEnv setDefault : Config → Config)
    (platform : Option Platform) (c : CLIContext) (cfg0 : Config) : Config :=
  applyPlatform platform (setDefault (setEnv (setCLIArg c cfg0)))

/-- Log-level handling of `Runner.action` (`runner.go:169-177`) as an event
list: when `cfg.LogLevel` is non-empty, parse it; on a parse error log the
invalid level; in both cases call `logrus.SetLevel` with the parsed value. -/
def logLevelEvents (cfg : Config) : List Event :=
  if cfg.LogLevel ≠ "" then
    match parseLevel cfg.LogLevel with
    | (lvl, none) => [Event.setLogLevel lvl]
    | (lvl, some _) => [Event.logInvalidLogLevel cfg.LogLevel, Event.setLogLevel lvl]
  else []

/-- Embedding of `Runner.action` (`runner.go:129-205`).  Effects are made
explicit: `readCfg` is the result of `runner.readConfig`, `compileNonEmpty`
stands for the expression compiler on non-empty sources, and the returned
event list records the side effects in program order.  The control flow is
a direct translation: read config, assemble, validate owner, repo, and the
base/all invariant, create the GitHub client, handle the log level without
aborting, log the config, compile the expression (aborting on failure), and
finally call `controller.UpdatePR`. -/
def action (compileNonEmpty : String → Except String Predicate)
    (setEnv setDefault : Config → Config) (platform : Option Platform)
    (readCfg : Except String Config) (c : CLIContext) :
    ActionOutcome × List Event :=
  match readCfg with
  | Except.error e => (ActionOutcome.err (ActionError.readConfig e), [])
  | Except.ok cfg0 =>
    let cfg := assembleConfig setEnv setDefault platform c cfg0
    if cfg.Owner = "" then (ActionOutcome.err ActionError.ownerRequired, [])
    else if cfg.Repo = "" then (ActionOutcome.err ActionError.repoRequired, [])
    else if ¬cfg.All ∧ cfg.Base = "" then
      (ActionOutcome.err ActionError.eitherAllorBaseRequired, [])
    else if cfg.All ∧ cfg.Base ≠ "" then
      (ActionOutcome.err ActionError.bothAllAndBaseCantBeSet, [])
    else
      let evs := [Event.ghClientCreated cfg.GitHubToken] ++ logLevelEvents cfg ++
        [Event.logConfigDebug]
      match exprNew compileNonEmpty cfg.Expr with
      | Except.error e =>
        (ActionOutcome.err (ActionError.compile
          ("it is failed to compile the expression. Please check the expression: " ++ e)), evs)
      | Except.ok _ =>
        (ActionOutcome.updatePR cfg, evs ++ [Event.updatePRCalled cfg])

/-- CLI invocation with no flag set (all string flags read as `""`,
the bool flag as `false`). -/
def cliNoFlags : CLIContext :=
  { owner := "", repo := "", githubToken := "", base := "", all := false
    logLevel := "", configPath := "" }

/-- Expression compiler stand-in that fails on every non-empty source. -/
def compileAlwaysFails : String → Except String Predicate :=
  fun _ => Except.error "unexpected token"

/-- C1 (amended): provided the assembled owner and repo are non-empty (the
owner/repo checks run first), an assembled configuration with both base and
all set makes `Runner.action` return `ErrBothAllAndBaseCantBeSet`, and one
with neither set makes it return `ErrEitherAllorBaseIsRequired`, in both
cases with an empty effect trace: the GitHub client is never created and
`controller.UpdatePR` is never invoked. -/
theorem action_selection_mode_validation
    (cne : String → Except String Predicate) (se sd : Config → Config)
    (pf : Option Platform) (cfg0 : Config) (c : CLIContext) (cfg : Config)
    (hcfg : assembleConfig se sd pf c cfg0 = cfg)
    (hO : cfg.Owner ≠ "") (hR : cfg.Repo ≠ "") :
    (cfg.All = true → cfg.Base ≠ "" →
      action cne se sd pf (Except.ok cfg0) c =
        (ActionOutcome.err ActionError.bothAllAndBaseCantBeSet, [])) ∧
    (cfg.All = false → cfg.Base = "" →
      action cne se sd pf (Except.ok cfg0) c =
        (ActionOutcome.err ActionError.eitherAllorBaseRequired, [])) := by
  constructor <;> intro h1 h2 <;> simp [action, hcfg, hO, hR, h1, h2]

/-- Witness for `action_selection_mode_validation` at concrete inputs. -/
theorem action_selection_mode_validation_witness :
    (action compileAlwaysFails id id none
        (Except.ok { Config.zero with
          Owner := "o"
          Repo := "r"
          Base := "main"
          All := true }) cliNoFlags =
      (ActionOutcome.err ActionError.bothAllAndBaseCantBeSet, [])) ∧
    (action compileAlwaysFails id id none
        (Except.ok { Config.zero with Owner := "o", Repo := "r" }) cliNoFlags =
      (ActionOutcome.err ActionError.eitherAllorBaseRequired, [])) := by
  constructor
  · exact (action_selection_mode_validation compileAlwaysFails id id none
      { Config.zero with Owner := "o", Repo := "r", Base := "main", All := true }
      cliNoFlags _ rfl (by decide) (by decide)).1 (by decide) (by decide)
  · exact (action_selection_mode_validation compileAlwaysFails id id none
      { Config.zero with Owner := "o", Repo := "r" }
      cliNoFlags _ rfl (by decide) (by decide)).2 (by decide) (by decide)

/-- Counterexample to C1 as stated: an assembled configuration with both
base and all set but an empty owner does not yield
`ErrBothAllAndBaseCantBeSet`; the owner check runs first and `Runner.action`
returns `ErrOwnerIsRequired` instead. -/
theorem action_both_set_not_specific_error :
    ((assembleConfig id id none cliNoFlags
        { Config.zero with Repo := "r", Base := "main", All := true }).All = true ∧
     (assembleConfig id id none cliNoFlags
        { Config.zero with Repo := "r", Base := "main", All := true }).Base ≠ "") ∧
    (action compileAlwaysFails id id none
        (Except.ok { Config.zero with Repo := "r", Base := "main", All := true })
        cliNoFlags).1 ≠
      ActionOutcome.err ActionError.bothAllAndBaseCantBeSet ∧
    (action compileAlwaysFails id id none
        (Except.ok { Config.zero with Repo := "r", Base := "main", All := true })
        cliNoFlags).1 =
      ActionOutcome.err ActionError.ownerRequired := by
  decide

/-- C2 (as the code actually behaves): with an empty GitHub token but
otherwise valid configuration, `Runner.action` performs no token validation:
it creates the GitHub client with the empty token and invokes
`controller.UpdatePR`.  `ErrGitHubAccessTokenIsRequired` is declared in
`runner.go:82` but never returned. -/
theorem action_empty_token_reaches_orchestration :
    ({ Config.zero with Owner := "o", Repo := "r", Base := "main" } : Config).GitHubToken
        = "" ∧
    (action compileAlwaysFails id id none
        (Except.ok { Config.zero with Owner := "o", Repo := "r", Base := "main" })
        cliNoFlags).1 =
      ActionOutcome.updatePR
        { Config.zero with Owner := "o", Repo := "r", Base := "main" } ∧
    Event.ghClientCreated "" ∈
      (action compileAlwaysFails id id none
        (Except.ok { Config.zero with Owner := "o", Repo := "r", Base := "main" })
        cliNoFlags).2 ∧
    Event.updatePRCalled
        { Config.zero with Owner := "o", Repo := "r", Base := "main" } ∈
      (action compileAlwaysFails id id none
        (Except.ok { Config.zero with Owner := "o", Repo := "r", Base := "main" })
        cliNoFlags).2 := by
  decide

/-- C4: a configuration whose owner (respectively repo) is still empty after
all layers including the CI-platform fallback makes `Runner.action` return
`ErrOwnerIsRequired` (respectively `ErrRepoIsRequired`) with an empty effect
trace, and the platform fallback fills owner and repo only when they are
empty. -/
theorem action_owner_repo_validation
    (cne : String → Except String Predicate) (se sd : Config → Config)
    (pf : Option Platform) (cfg0 : Config) (c : CLIContext) (cfg : Config)
    (hcfg : assembleConfig se sd pf c cfg0 = cfg) :
    (cfg.Owner = "" →
      action cne se sd pf (Except.ok cfg0) c =
        (ActionOutcome.err ActionError.ownerRequired, [])) ∧
    (cfg.Owner ≠ "" → cfg.Repo = "" →
      action cne se sd pf (Except.ok cfg0) c =
        (ActionOutcome.err ActionError.repoRequired, [])) ∧
    (∀ p cfg', cfg'.Owner ≠ "" → (applyPlatform p cfg').Owner = cfg'.Owner) ∧
    (∀ p cfg', cfg'.Repo ≠ "" → (applyPlatform p cfg').Repo = cfg'.Repo) ∧
    (∀ q cfg', cfg'.Owner = "" →
      (applyPlatform (some q) cfg').Owner = q.repoOwner) ∧
    (∀ q cfg', cfg'.Repo = "" →
      (applyPlatform (some q) cfg').Repo = q.repoName) := by
  refine ⟨?_, ?_, ?_, ?_, ?_, ?_⟩
  · intro hO; simp [action, hcfg, hO]
  · intro hO hR; simp [action, hcfg, hO, hR]
  · intro p cfg' h
    cases p with
    | none => rfl
    | some q =>
      simp only [applyPlatform, h]
      by_cases hr : cfg'.Repo = "" <;> simp [h, hr]
  · intro p cfg' h
    cases p with
    | none => rfl
    | some q =>
      simp only [applyPlatform]
      by_cases ho : cfg'.Owner = "" <;> simp [h, ho]
  · intro q cfg' h
    by_cases hr : cfg'.Repo = "" <;> simp [applyPlatform, h, hr]
  · intro q cfg' h
    by_cases ho : cfg'.Owner = "" <;> simp [applyPlatform, h, ho]

/-- Witness for `action_owner_repo_validation` at concrete inputs. -/
theorem action_owner_repo_validation_witness :
    (action compileAlwaysFails id id none (Except.ok Config.zero) cliNoFlags =
      (ActionOutcome.err ActionError.ownerRequired, [])) ∧
    (action compileAlwaysFails id id none
        (Except.ok { Config.zero with Owner := "o" }) cliNoFlags =
      (ActionOutcome.err ActionError.repoRequired, [])) := by
  constructor
  · exact (action_owner_repo_validation compileAlwaysFails id id none
      Config.zero cliNoFlags _ rfl).1 (by decide)
  · exact (action_owner_repo_validation compileAlwaysFails id id none
      { Config.zero with Owner := "o" } cliNoFlags _ rfl).2.1
      (by decide) (by decide)

/-- C3: when the assembled configuration passes validation but the filter
expression fails to compile, `Runner.action` returns an error wrapping the
compile error, and `controller.UpdatePR` is never invoked (no
`updatePRCalled` event occurs), so no candidate is fetched or processed. -/
theorem action_compile_error_aborts
    (cne : String → Except String Predicate) (se sd : Config → Config)
    (pf : Option Platform) (cfg0 : Config) (c : CLIContext) (cfg : Config)
    (e : String)
    (hcfg : assembleConfig se sd pf c cfg0 = cfg)
    (hO : cfg.Owner ≠ "") (hR : cfg.Repo ≠ "")
    (h3 : ¬(¬cfg.All ∧ cfg.Base = "")) (h4 : ¬(cfg.All ∧ cfg.Base ≠ ""))
    (hc : exprNew cne cfg.Expr = Except.error e) :
    (action cne se sd pf (Except.ok cfg0) c).1 =
      ActionOutcome.err (ActionError.compile
        ("it is failed to compile the expression. Please check the expression: " ++ e)) ∧
    ∀ cfg', Event.updatePRCalled cfg' ∉ (action cne se sd pf (Except.ok cfg0) c).2 := by
  have hnoPR : ∀ cfg' cfg'', Event.updatePRCalled cfg' ∉ logLevelEvents cfg'' := by
    intro cfg' cfg''
    unfold logLevelEvents
    split
    · split <;> simp
    · simp
  have hact : action cne se sd pf (Except.ok cfg0) c =
      (ActionOutcome.err (ActionError.compile
        ("it is failed to compile the expression. Please check the expression: " ++ e)),
       [Event.ghClientCreated cfg.GitHubToken] ++ logLevelEvents cfg ++
         [Event.logConfigDebug]) := by
    simp only [action, hcfg]
    rw [if_neg hO, if_neg hR, if_neg h3, if_neg h4, hc]
  refine ⟨by rw [hact], ?_⟩
  intro cfg'
  rw [hact]
  simp [hnoPR cfg' cfg]

/-- Witness for `action_compile_error_aborts` at concrete inputs. -/
theorem action_compile_error_aborts_witness :
    (action compileAlwaysFails id id none
        (Except.ok { Config.zero with
          Owner := "o"
          Repo := "r"
          Base := "main"
          Expr := "bad(" }) cliNoFlags).1 =
      ActionOutcome.err (ActionError.compile
        ("it is failed to compile the expression. Please check the expression: " ++
          "unexpected token")) := by
  exact (action_compile_error_aborts compileAlwaysFails id id none
    { Config.zero with Owner := "o", Repo := "r", Base := "main", Expr := "bad(" }
    cliNoFlags _ "unexpected token" rfl (by decide) (by decide) (by decide)
    (by decide) rfl).1

/-- Failed parses in the embedded `logrus.ParseLevel` return the zero level
value, as the Go function does. -/
theorem parseLevel_error_level_zero (s : String)
    (h : (parseLevel s).2 ≠ none) : (parseLevel s).1 = 0 := by
  unfold parseLevel at h ⊢
  split <;> simp_all

/-- C8: when `cfg.LogLevel` is non-empty but not a recognized level name,
`Runner.action` does not abort: it logs the parse error, still calls
`logrus.SetLevel` with the zero level value returned by the failed parse,
and proceeds to expression compilation and orchestration, the outcome being
determined solely by the compile result. -/
theorem action_invalid_log_level
    (cne : String → Except String Predicate) (se sd : Config → Config)
    (pf : Option Platform) (cfg0 : Config) (c : CLIContext) (cfg : Config)
    (hcfg : assembleConfig se sd pf c cfg0 = cfg)
    (hO : cfg.Owner ≠ "") (hR : cfg.Repo ≠ "")
    (h3 : ¬(¬cfg.All ∧ cfg.Base = "")) (h4 : ¬(cfg.All ∧ cfg.Base ≠ ""))
    (hl : cfg.LogLevel ≠ "") (hp : (parseLevel cfg.LogLevel).2 ≠ none) :
    (parseLevel cfg.LogLevel).1 = 0 ∧
    Event.logInvalidLogLevel cfg.LogLevel ∈
      (action cne se sd pf (Except.ok cfg0) c).2 ∧
    Event.setLogLevel 0 ∈ (action cne se sd pf (Except.ok cfg0) c).2 ∧
    (action cne se sd pf (Except.ok cfg0) c).1 =
      (match exprNew cne cfg.Expr with
       | Except.error e => ActionOutcome.err (ActionError.compile
           ("it is failed to compile the expression. Please check the expression: " ++ e))
       | Except.ok _ => ActionOutcome.updatePR cfg) := by
  have hz := parseLevel_error_level_zero cfg.LogLevel hp
  have hev : logLevelEvents cfg =
      [Event.logInvalidLogLevel cfg.LogLevel, Event.setLogLevel 0] := by
    unfold logLevelEvents
    rw [if_pos hl]
    rcases hq : parseLevel cfg.LogLevel with ⟨l, o⟩
    rw [hq] at hp hz
    cases o with
    | none => simp at hp
    | some m => simp only at hz; rw [hz]
  rcases hx : exprNew cne cfg.Expr with em | p
  · have hact : action cne se sd pf (Except.ok cfg0) c =
        (ActionOutcome.err (ActionError.compile
          ("it is failed to compile the expression. Please check the expression: " ++ em)),
         [Event.ghClientCreated cfg.GitHubToken] ++ logLevelEvents cfg ++
           [Event.logConfigDebug]) := by
      simp only [action, hcfg]
      rw [if_neg hO, if_neg hR, if_neg h3, if_neg h4, hx]
    refine ⟨hz, ?_, ?_, ?_⟩
    · rw [hact, hev]; simp
    · rw [hact, hev]; simp
    · rw [hact]
  · have hact : action cne se sd pf (Except.ok cfg0) c =
        (ActionOutcome.updatePR cfg,
         [Event.ghClientCreated cfg.GitHubToken] ++ logLevelEvents cfg ++
           [Event.logConfigDebug] ++ [Event.updatePRCalled cfg]) := by
      simp only [action, hcfg]
      rw [if_neg hO, if_neg hR, if_neg h3, if_neg h4, hx]
    refine ⟨hz, ?_, ?_, ?_⟩
    · rw [hact, hev]; simp
    · rw [hact, hev]; simp
    · rw [hact]

/-- Witness for `action_invalid_log_level` at a concrete configuration with
the unrecognized log level "verbose". -/
theorem action_invalid_log_level_witness :
    (parseLevel "verbose").1 = 0 ∧
    Event.logInvalidLogLevel "verbose" ∈
      (action compileAlwaysFails id id none
        (Except.ok { Config.zero with Owner := "o", Repo := "r", Base := "main",
                                      LogLevel := "verbose" }) cliNoFlags).2 ∧
    Event.setLogLevel 0 ∈
      (action compileAlwaysFails id id none
        (Except.ok { Config.zero with Owner := "o", Repo := "r", Base := "main",
                                      LogLevel := "verbose" }) cliNoFlags).2 ∧
    (action compileAlwaysFails id id none
        (Except.ok { Config.zero with Owner := "o", Repo := "r", Base := "main",
                                      LogLevel := "verbose" }) cliNoFlags).1 =
      ActionOutcome.updatePR { Config.zero with Owner := "o", Repo := "r",
                                                Base := "main", LogLevel := "verbose" } := by
  exact action_invalid_log_level compileAlwaysFails id id none
    { Config.zero with Owner := "o", Repo := "r", Base := "main", LogLevel := "verbose" }
    cliNoFlags _ rfl (by decide) (by decide) (by decide) (by decide)
    (by decide) (by decide)

/-- Pull-request candidate (spec §3): number, head branch and SHA, base
branch and recorded base SHA, plus the metadata surfaced to the filter. -/
structure PullRequest where
  Number : Nat
  HeadBranch : String
  HeadSHA : String
  BaseBranch : String
  BaseSHA : String
  Title : String
  Author : String
  Labels : List String
  Draft : Bool
deriving DecidableEq, Repr

/-- Read-only evaluation context built per candidate (spec §3). -/
def contextOf (pr : PullRequest) : EvalContext :=
  { Number := pr.Number, Title := pr.Title, Author := pr.Author
    Labels := pr.Labels, Draft := pr.Draft }

/-- Action recorded for one processed candidate (spec §3, Outcome Record):
skipped-by-filter, up-to-date, triggered, or failed with an error detail. -/
inductive OutcomeAction where
  | skippedByFilter
  | upToDate
  | triggered
  | failed (detail : String)
deriving DecidableEq, Repr

/-- Outcome Record: one per processed candidate (spec §3). -/
structure OutcomeRecord where
  Number : Nat
  action : OutcomeAction
deriving DecidableEq, Repr

/-- Modelled from the spec: the per-candidate step of `controller.UpdatePR`
(package `pkg/controller`, not among the given sources), following spec
§4.4 `Listing -> Iterating`: evaluate the filter (an evaluation error is a
per-candidate failure); if false record skipped-by-filter; otherwise detect
staleness (an error is a per-candidate failure); if not stale record
up-to-date; otherwise invoke the trigger executor and record triggered on
success or failed with the detail on error. -/
def processCandidate (pred : Predicate)
    (isStale : PullRequest → Except String Bool)
    (trigger : PullRequest → Except String Unit)
    (pr : PullRequest) : OutcomeRecord :=
  match pred (contextOf pr) with
  | Except.error e => { Number := pr.Number, action := OutcomeAction.failed e }
  | Except.ok false => { Number := pr.Number, action := OutcomeAction.skippedByFilter }
  | Except.ok true =>
    match isStale pr with
    | Except.error e => { Number := pr.Number, action := OutcomeAction.failed e }
    | Except.ok false => { Number := pr.Number, action := OutcomeAction.upToDate }
    | Except.ok true =>
      match trigger pr with
      | Except.error e => { Number := pr.Number, action := OutcomeAction.failed e }
      | Except.ok _ => { Number := pr.Number, action := OutcomeAction.triggered }

/-- Modelled from the spec: the iteration of `controller.UpdatePR` over the
candidate sequence (spec §4.4): each candidate is processed in the order
received, every candidate gets an Outcome Record, and processing continues
regardless of individual failures. -/
def updatePRRun (pred : Predicate)
    (isStale : PullRequest → Except String Bool)
    (trigger : PullRequest → Except String Unit)
    (candidates : List PullRequest) : List OutcomeRecord :=
  candidates.map (processCandidate pred isStale trigger)

/-- C6: in every run, each candidate receives exactly one Outcome Record in
the run summary (the summary has one record per candidate, in order, and
record `i` is a function of candidate `i` alone), so a failure while
processing one candidate — including a Trigger Executor failure — never
prevents any later candidate from being processed. -/
theorem updatePRRun_one_record_per_candidate (pred : Predicate)
    (isStale : PullRequest → Except String Bool)
    (trigger : PullRequest → Except String Unit)
    (candidates : List PullRequest) :
    (updatePRRun pred isStale trigger candidates).length = candidates.length ∧
    ∀ i : Fin candidates.length,
      (updatePRRun pred isStale trigger candidates).get
          (Fin.cast (List.length_map _ _).symm (Fin.cast rfl i)) =
        processCandidate pred isStale trigger (candidates.get i) := by
  constructor
  · exact List.length_map _ _
  · intro i
    simp [updatePRRun]

/-- C7: compiling an empty filter-expression string succeeds and yields a
predicate returning true on every evaluation context, so with the empty
expression no candidate is ever skipped by the filter: every candidate
reaches the staleness check. -/
theorem exprNew_empty_selects_everything
    (compileNonEmpty : String → Except String Predicate) :
    ∃ p : Predicate, exprNew compileNonEmpty "" = Except.ok p ∧
      (∀ ctx : EvalContext, p ctx = Except.ok true) ∧
      ∀ (isStale : PullRequest → Except String Bool)
        (trigger : PullRequest → Except String Unit) (pr : PullRequest),
        (processCandidate p isStale trigger pr).action ≠
          OutcomeAction.skippedByFilter := by
  refine ⟨fun _ => Except.ok true, rfl, fun _ => rfl, ?_⟩
  intro isStale trigger pr
  unfold processCandidate
  rcases isStale pr with e | b
  · simp
  · cases b <;> rcases htr : trigger pr with e' | u <;> simp [htr]

/-- Splitting of a path at the separator, character-wise: the components of
`l` between occurrences of the slash (Go `strings.Split(l, "/")`-style, the
element decomposition underlying `path.Clean`). -/
def splitSlash : List Char → List (List Char)
  | [] => [[]]
  | c :: cs =>
    let r := splitSlash cs
    if c = '/' then [] :: r
    else (c :: r.headD []) :: r.tail

/-- Joining of path components with the separator (inverse of `splitSlash`). -/
def intercalateSlash : List (List Char) → List Char
  | [] => []
  | [x] => x
  | x :: xs => x ++ '/' :: intercalateSlash xs

/-- Element loop of Go `path.Clean` over the components of a path (stack
held most-recent-first): empty and "." components are dropped; ".." pops
the stack when there is a poppable element, is dropped at the root when the
path is rooted, and is kept when the path is relative and nothing can be
popped; all other components are pushed. -/
def cleanLoop (rooted : Bool) : List (List Char) → List (List Char) → List (List Char)
  | stk, [] => stk.reverse
  | stk, c :: cs =>
    if c = [] ∨ c = ['.'] then cleanLoop rooted stk cs
    else if c = ['.', '.'] then
      (match stk with
       | [] => if rooted then cleanLoop rooted [] cs
               else cleanLoop rooted [['.', '.']] cs
       | top :: rest =>
         if rooted then cleanLoop rooted rest cs
         else if top = ['.', '.'] then cleanLoop rooted (c :: stk) cs
         else cleanLoop rooted rest cs)
    else cleanLoop rooted (c :: stk) cs

/-- Go `path.Clean` on the character list of a path (on unix,
`filepath.Clean` is `path.Clean`): shortest equivalent path obtained by
dropping empty and "." elements and resolving ".." elements; the empty path
cleans to ".", a rooted path stays rooted, and an emptied relative path
becomes ".". -/
def cleanL (l : List Char) : List Char :=
  match l with
  | [] => ['.']
  | c :: _ =>
    let stk := cleanLoop (c == '/') [] (splitSlash l)
    if c = '/' then '/' :: intercalateSlash stk
    else if stk = [] then ['.']
    else intercalateSlash stk

/-- Go `filepath.Clean` on strings. -/
def cleanPath (s : String) : String := String.mk (cleanL s.data)

/-- Character-list step of Go `filepath.Dir`: drop the trailing run of
non-separator characters (the final element), then clean the remaining
prefix; a path without separators yields ".". -/
def dirL (l : List Char) : List Char :=
  cleanL ((l.reverse.dropWhile (fun c => c ≠ '/')).reverse)

/-- Go `filepath.Dir` on strings (`wd = filepath.Dir(wd)` in
`Reader.find`). -/
def dirPath (s : String) : String := String.mk (dirL s.data)

/-- Go `filepath.Join(wd, name)`: non-empty elements joined with the
separator, then cleaned; if all elements are empty the result is empty. -/
def joinPath (wd name : String) : String :=
  if wd = "" then
    if name = "" then "" else cleanPath name
  else cleanPath (String.mk (wd.data ++ '/' :: name.data))

/-- Embedding of the loop of `Reader.find` (`runner.go` config reader,
lines 221-235) with explicit fuel: in each iteration, probe
`.run-ci.yml` and `.run-ci.yaml` in the current directory via `ExistFile`;
if neither exists, stop unsuccessfully when the directory is "/" or "",
otherwise continue in the parent directory `filepath.Dir(wd)`.  `none`
models running out of fuel (the Go loop not having returned within that
many iterations); `some r` is the Go return value, with `r = some p` for
`(p, true)` and `r = none` for `("", false)`. -/
def findFuel (existFile : String → Bool) : Nat → String → Option (Option String)
  | 0, _ => none
  | fuel + 1, wd =>
    if existFile (joinPath wd ".run-ci.yml") then some (some (joinPath wd ".run-ci.yml"))
    else if existFile (joinPath wd ".run-ci.yaml") then some (some (joinPath wd ".run-ci.yaml"))
    else if wd = "/" ∨ wd = "" then some none
    else findFuel existFile fuel (dirPath wd)

/-- Embedding of `Reader.FindAndRead` (config reader lines 250-259):
with an empty explicit path, search upward from the working directory and
return the zero `Config` with no error when nothing is found; otherwise
read the explicit or found file.  `readFile` abstracts `Reader.read`
(`os.Open` + YAML decode, lines 237-248): it returns the parsed `Config` or
the open/parse error.  The result is `none` only when the underlying search
ran out of fuel. -/
def FindAndRead (existFile : String → Bool)
    (readFile : String → Except String Config)
    (fuel : Nat) (cfgPath wd : String) : Option (Except String Config) :=
  if cfgPath = "" then
    match findFuel existFile fuel wd with
    | none => none
    | some none => some (Except.ok Config.zero)
    | some (some p) => some (readFile p)
  else some (readFile cfgPath)

/-- Size measure of a component list: total characters plus the number of
components (the length of the path the components came from, plus one). -/
def pathMeasure (cs : List (List Char)) : Nat :=
  (cs.map List.length).sum + cs.length

/-- The measure of a component list, unfolded one component. -/
theorem pathMeasure_cons (c : List Char) (cs : List (List Char)) :
    pathMeasure (c :: cs) = c.length + 1 + pathMeasure cs := by
  simp [pathMeasure]; omega

/-- The measure of the empty component list. -/
theorem pathMeasure_nil : pathMeasure [] = 0 := rfl

/-- The measure is additive over append. -/
theorem pathMeasure_append (a b : List (List Char)) :
    pathMeasure (a ++ b) = pathMeasure a + pathMeasure b := by
  simp [pathMeasure]; omega

/-- Reversal preserves the component measure. -/
theorem pathMeasure_reverse (cs : List (List Char)) :
    pathMeasure cs.reverse = pathMeasure cs := by
  induction cs with
  | nil => rfl
  | cons c cs ih =>
    rw [List.reverse_cons, pathMeasure_append, pathMeasure_cons, ih,
      pathMeasure_cons, pathMeasure_nil]
    omega

/-- The clean loop never increases the combined measure of its stack and
its remaining components. -/
theorem cleanLoop_measure (rooted : Bool) :
    ∀ (cs stk : List (List Char)),
      pathMeasure (cleanLoop rooted stk cs) ≤ pathMeasure stk + pathMeasure cs := by
  intro cs
  induction cs with
  | nil =>
    intro stk
    simp [cleanLoop, pathMeasure_reverse, pathMeasure_nil]
  | cons c cs ih =>
    intro stk
    have hc := pathMeasure_cons c cs
    simp only [cleanLoop]
    by_cases h1 : (c = [] ∨ c = ['.'])
    · rw [if_pos h1]
      have h := ih stk
      omega
    · rw [if_neg h1]
      by_cases h2 : c = ['.', '.']
      · rw [if_pos h2]
        have hc2 : c.length = 2 := by rw [h2]; rfl
        cases stk with
        | nil =>
          dsimp only
          cases rooted
          · rw [if_neg (by simp)]
            have h := ih [['.', '.']]
            have h3 : pathMeasure [['.', '.']] = 3 := by
              rw [pathMeasure_cons, pathMeasure_nil]; rfl
            omega
          · rw [if_pos rfl]
            have h := ih []
            rw [pathMeasure_nil] at h
            omega
        | cons top rest =>
          dsimp only
          have ht := pathMeasure_cons top rest
          cases rooted
          · rw [if_neg (by simp)]
            by_cases h3 : top = ['.', '.']
            · rw [if_pos h3]
              have h := ih (c :: top :: rest)
              have h4 := pathMeasure_cons c (top :: rest)
              omega
            · rw [if_neg h3]
              have h := ih rest
              omega
          · rw [if_pos rfl]
            have h := ih rest
            omega
      · rw [if_neg h2]
        have h := ih (c :: stk)
        have h4 := pathMeasure_cons c stk
        omega

/-- Path splitting never yields an empty component list. -/
theorem splitSlash_ne_nil : ∀ (l : List Char), splitSlash l ≠ [] := by
  intro l
  cases l with
  | nil => simp [splitSlash]
  | cons c cs =>
    simp only [splitSlash]
    split_ifs <;> simp

/-- Unfolding of `splitSlash` at a separator. -/
theorem splitSlash_cons_slash (cs : List Char) :
    splitSlash ('/' :: cs) = [] :: splitSlash cs := by
  simp [splitSlash]

/-- Unfolding of `splitSlash` at a non-separator character. -/
theorem splitSlash_cons_ne (c : Char) (cs : List Char) (h : c ≠ '/') :
    splitSlash (c :: cs) =
      (c :: (splitSlash cs).headD []) :: (splitSlash cs).tail := by
  simp [splitSlash, h]

/-- The components of a path measure exactly its length plus one. -/
theorem splitSlash_measure : ∀ (l : List Char),
    pathMeasure (splitSlash l) = l.length + 1 := by
  intro l
  induction l with
  | nil => simp [splitSlash, pathMeasure_cons, pathMeasure_nil]
  | cons c cs ih =>
    by_cases h : c = '/'
    · subst h
      rw [splitSlash_cons_slash, pathMeasure_cons]
      simp [ih, pathMeasure_nil]
      omega
    · obtain ⟨x, xs, hx⟩ := List.exists_cons_of_ne_nil (splitSlash_ne_nil cs)
      rw [splitSlash_cons_ne c cs h, hx]
      rw [hx, pathMeasure_cons] at ih
      simp only [List.headD_cons, List.tail_cons]
      rw [pathMeasure_cons]
      simp only [List.length_cons] at ih ⊢
      omega

/-- Joining a non-empty component list yields one character less than its
measure. -/
theorem intercalateSlash_length : ∀ (x : List Char) (xs : List (List Char)),
    (intercalateSlash (x :: xs)).length + 1 = pathMeasure (x :: xs) := by
  intro x xs
  induction xs generalizing x with
  | nil => simp [intercalateSlash, pathMeasure_cons, pathMeasure_nil]
  | cons y ys ih =>
    have h := ih y
    simp only [intercalateSlash]
    rw [pathMeasure_cons]
    simp only [List.length_append, List.length_cons]
    omega

/-- A trailing empty component does not change the result of the clean
loop. -/
theorem cleanLoop_append_empty (rooted : Bool) :
    ∀ (cs stk : List (List Char)),
      cleanLoop rooted stk (cs ++ [[]]) = cleanLoop rooted stk cs := by
  intro cs
  induction cs with
  | nil =>
    intro stk
    simp [cleanLoop]
  | cons c cs ih =>
    intro stk
    simp only [List.cons_append, cleanLoop]
    by_cases h1 : (c = [] ∨ c = ['.'])
    · rw [if_pos h1, if_pos h1]
      exact ih stk
    · rw [if_neg h1, if_neg h1]
      by_cases h2 : c = ['.', '.']
      · rw [if_pos h2, if_pos h2]
        cases stk with
        | nil => cases rooted <;> simp [ih]
        | cons top rest =>
          cases rooted
          · by_cases h3 : top = ['.', '.'] <;> simp [h3, ih]
          · simp [ih]
      · rw [if_neg h2, if_neg h2]
        exact ih _

/-- Appending a trailing separator appends an empty component. -/
theorem splitSlash_append_slash : ∀ (q : List Char),
    splitSlash (q ++ ['/']) = splitSlash q ++ [[]] := by
  intro q
  induction q with
  | nil => simp [splitSlash]
  | cons c cs ih =>
    obtain ⟨x, xs, hx⟩ := List.exists_cons_of_ne_nil (splitSlash_ne_nil cs)
    by_cases h : c = '/'
    · subst h
      rw [List.cons_append, splitSlash_cons_slash, splitSlash_cons_slash, ih]
      simp
    · rw [List.cons_append, splitSlash_cons_ne c (cs ++ ['/']) h,
        splitSlash_cons_ne c cs h, ih, hx]
      simp

/-- Unfolding of `cleanL` on a rooted path. -/
theorem cleanL_cons_slash (t : List Char) :
    cleanL ('/' :: t) =
      '/' :: intercalateSlash (cleanLoop true [] (splitSlash ('/' :: t))) := by
  simp [cleanL]

/-- Cleaning a path that starts and ends with the separator shortens it by
at least one character and keeps it rooted. -/
theorem cleanL_slash_sandwich (q : List Char) :
    (cleanL ('/' :: (q ++ ['/']))).length ≤ q.length + 1 ∧
    (cleanL ('/' :: (q ++ ['/']))).head? = some '/' := by
  rw [cleanL_cons_slash]
  have hsplit : splitSlash ('/' :: (q ++ ['/'])) = [] :: (splitSlash q ++ [[]]) := by
    rw [splitSlash_cons_slash, splitSlash_append_slash]
  have h0 : cleanLoop true [] ([] :: (splitSlash q ++ [[]])) =
      cleanLoop true [] (splitSlash q ++ [[]]) := by
    simp [cleanLoop]
  have hskip : cleanLoop true [] (splitSlash ('/' :: (q ++ ['/']))) =
      cleanLoop true [] (splitSlash q) := by
    rw [hsplit, h0, cleanLoop_append_empty]
  rw [hskip]
  have hm : pathMeasure (cleanLoop true [] (splitSlash q)) ≤ q.length + 1 := by
    have h := cleanLoop_measure true (splitSlash q) []
    rw [pathMeasure_nil, splitSlash_measure] at h
    omega
  refine ⟨?_, rfl⟩
  cases hstk : cleanLoop true [] (splitSlash q) with
  | nil => simp [intercalateSlash]
  | cons x xs =>
    have hi := intercalateSlash_length x xs
    rw [hstk] at hm
    simp only [List.length_cons]
    omega

/-- Dropping the leading run of non-separator characters from a list that
contains a separator stops exactly at that separator. -/
theorem dropWhile_slash : ∀ (m : List Char), '/' ∈ m →
    ∃ r, m.dropWhile (fun c => c ≠ '/') = '/' :: r := by
  intro m hm
  induction m with
  | nil => cases hm
  | cons c cs ih =>
    by_cases hc : c = '/'
    · subst hc
      exact ⟨cs, by rw [List.dropWhile_cons, if_neg (by simp)]⟩
    · have hcs : '/' ∈ cs := by
        rcases List.mem_cons.mp hm with h | h
        · exact absurd h.symm hc
        · exact h
      obtain ⟨r, hr⟩ := ih hcs
      exact ⟨r, by rw [List.dropWhile_cons, if_pos (by simp [hc]), hr]⟩

/-- Taking the parent directory of a rooted path other than the root makes
it strictly shorter and keeps it rooted: the key facts behind termination
of `Reader.find`. -/
theorem dirL_shrinks (l : List Char) (hhead : l.head? = some '/')
    (hne : l ≠ ['/']) :
    (dirL l).length < l.length ∧ (dirL l).head? = some '/' := by
  obtain ⟨t, hl⟩ : ∃ t, l = '/' :: t := by
    cases l with
    | nil => simp at hhead
    | cons a t =>
      simp only [List.head?_cons, Option.some.injEq] at hhead
      exact ⟨t, by rw [hhead]⟩
  have ht : t ≠ [] := by
    intro h0
    exact hne (by rw [hl, h0])
  have hmem : '/' ∈ l.reverse := by
    rw [hl]
    simp
  obtain ⟨r, hr⟩ := dropWhile_slash l.reverse hmem
  have hstrip : (l.reverse.dropWhile (fun c => c ≠ '/')).reverse =
      r.reverse ++ ['/'] := by
    rw [hr, List.reverse_cons]
  have hd : dirL l = cleanL (r.reverse ++ ['/']) := by
    unfold dirL
    rw [hstrip]
  have hpre0 : (l.reverse.dropWhile (fun c => c ≠ '/')).reverse <+: l := by
    have h1 : List.dropWhile (fun c => decide (c ≠ '/')) l.reverse <:+ l.reverse :=
      List.dropWhile_suffix _
    have h2 := List.reverse_prefix.mpr h1
    rwa [List.reverse_reverse] at h2
  have hpre : r.reverse ++ ['/'] <+: l := by
    rw [← hstrip]
    exact hpre0
  have hplen : (r.reverse ++ ['/']).length ≤ l.length := hpre.length_le
  cases hrc : r.reverse with
  | nil =>
    have hd1 : dirL l = ['/'] := by
      rw [hd, hrc]
      decide
    constructor
    · rw [hd1, hl]
      cases t with
      | nil => exact absurd rfl ht
      | cons b t' => simp
    · rw [hd1]
      rfl
  | cons a r' =>
    have ha : a = '/' := by
      rw [hrc, hl] at hpre
      have := (List.cons_prefix_cons.mp (by simpa using hpre)).1
      exact this
    have hform : r.reverse ++ ['/'] = '/' :: (r' ++ ['/']) := by
      rw [hrc, ha, List.cons_append]
    have hsw := cleanL_slash_sandwich r'
    have hlen2 : (r.reverse ++ ['/']).length = r'.length + 2 := by
      rw [hform]
      simp
    constructor
    · rw [hd, hform]
      omega
    · rw [hd, hform]
      exact hsw.2

/-- The parent step of `Reader.find` on an absolute directory other than
the root strictly shortens the path and keeps it absolute. -/
theorem dirPath_shrinks (wd : String) (hh : wd.data.head? = some '/')
    (hne : wd ≠ "/") :
    (dirPath wd).length < wd.length ∧ (dirPath wd).data.head? = some '/' := by
  have hd : wd.data ≠ ['/'] := by
    intro h0
    exact hne (String.ext (h0.trans rfl))
  have h := dirL_shrinks wd.data hh hd
  exact ⟨h.1, h.2⟩

/-- With fuel at least the length of an absolute working directory, the
`Reader.find` loop returns (it never runs out of fuel). -/
theorem findFuel_isSome (ef : String → Bool) :
    ∀ (n : Nat) (wd : String), wd.data.head? = some '/' → wd.length ≤ n →
      (findFuel ef n wd).isSome := by
  intro n
  induction n with
  | zero =>
    intro wd hh hl
    exfalso
    have h0 : wd.data = [] := List.length_eq_zero.mp (Nat.le_zero.mp hl)
    rw [h0] at hh
    simp at hh
  | succ n ih =>
    intro wd hh hl
    simp only [findFuel]
    split_ifs with h1 h2 h3
    · simp
    · simp
    · simp
    · have hne : wd ≠ "/" := fun h => h3 (Or.inl h)
      have hs := dirPath_shrinks wd hh hne
      exact ih (dirPath wd) hs.2 (by omega)

/-- When no configuration file exists anywhere, the `Reader.find` loop on an
absolute working directory walks up to the root and returns unsuccessfully. -/
theorem findFuel_no_file (ef : String → Bool) (hef : ∀ p, ef p = false) :
    ∀ (n : Nat) (wd : String), wd.data.head? = some '/' → wd.length ≤ n →
      findFuel ef n wd = some none := by
  intro n
  induction n with
  | zero =>
    intro wd hh hl
    exfalso
    have h0 : wd.data = [] := List.length_eq_zero.mp (Nat.le_zero.mp hl)
    rw [h0] at hh
    simp at hh
  | succ n ih =>
    intro wd hh hl
    simp only [findFuel]
    rw [if_neg (by simp [hef])]
    rw [if_neg (by simp [hef])]
    by_cases h3 : (wd = "/" ∨ wd = "")
    · rw [if_pos h3]
    · rw [if_neg h3]
      have hne : wd ≠ "/" := fun h => h3 (Or.inl h)
      have hs := dirPath_shrinks wd hh hne
      exact ih (dirPath wd) hs.2 (by omega)

/-- C10: for every absolute working-directory path, `Reader.find`
terminates: fuel equal to the length of the path suffices for the loop to
return, because every iteration that does not return replaces the directory
by its strictly shorter parent and the loop exits at "/" or "". -/
theorem find_terminates (ef : String → Bool) (wd : String)
    (h : wd.data.head? = some '/') :
    (findFuel ef wd.length wd).isSome :=
  findFuel_isSome ef wd.length wd h (Nat.le_refl _)

/-- Witness for `find_terminates` on the concrete directory "/a/b" with no
configuration file present. -/
theorem find_terminates_witness :
    ("/a/b" : String).data.head? = some '/' ∧
    (findFuel (fun _ => false) ("/a/b" : String).length "/a/b").isSome :=
  ⟨by decide, find_terminates (fun _ => false) "/a/b" (by decide)⟩

/-- C9: `Reader.FindAndRead` with an empty explicit config path returns the
zero `Config` value and no error whenever no file named `.run-ci.yml` or
`.run-ci.yaml` exists in the working directory or any ancestor (modelled by
`ExistFile` returning false on every path), while a non-empty explicit
config path that cannot be opened or parsed always yields the open/parse
error. -/
theorem FindAndRead_spec (ef : String → Bool)
    (rf : String → Except String Config) (wd : String)
    (hef : ∀ p, ef p = false) (hwd : wd.data.head? = some '/') :
    FindAndRead ef rf wd.length "" wd = some (Except.ok Config.zero) ∧
    ∀ (p e : String), p ≠ "" → rf p = Except.error e →
      FindAndRead ef rf wd.length p wd = some (Except.error e) := by
  constructor
  · unfold FindAndRead
    rw [if_pos rfl, findFuel_no_file ef hef wd.length wd hwd (Nat.le_refl _)]
  · intro p e hp he
    unfold FindAndRead
    rw [if_neg hp, he]

/-- Witness for `FindAndRead_spec` with working directory "/a", no config
file anywhere, and a YAML reader that always fails. -/
theorem FindAndRead_spec_witness :
    ("/a" : String).data.head? = some '/' ∧
    FindAndRead (fun _ => false) (fun _ => Except.error "yaml: unmarshal errors")
      ("/a" : String).length "" "/a" = some (Except.ok Config.zero) ∧
    FindAndRead (fun _ => false) (fun _ => Except.error "yaml: unmarshal errors")
      ("/a" : String).length "cfg.yml" "/a" =
      some (Except.error "yaml: unmarshal errors") := by
  refine ⟨by decide, ?_, ?_⟩
  · exact (FindAndRead_spec (fun _ => false)
      (fun _ => Except.error "yaml: unmarshal errors") "/a"
      (fun _ => rfl) (by decide)).1
  · exact (FindAndRead_spec (fun _ => false)
      (fun _ => Except.error "yaml: unmarshal errors") "/a"
      (fun _ => rfl) (by decide)).2 "cfg.yml" "yaml: unmarshal errors"
      (by decide) rfl
